import Mathlib

/-!
Verification of the FSA-ProjectBuilder decomposition/recomposition core.

The Python sources under `src/core/` are shallowly embedded below.  Text is
modelled at the granularity the source manipulates it: a file's content is a
list of lines (the source splits on a newline and joins back), a line is its
list of characters.  Python dictionaries keyed by strings are modelled as
association lists in insertion order; Python sets are modelled as lists that
are only queried for membership (where a set's iteration order matters it is
abstracted as first-insertion order, which is noted at the definition).
Machine integers do not overflow in any modelled code path, so `Nat`/`Int`
are used directly.  Definitions follow the source; theorems follow.
-/

/-- Characters treated as whitespace by Python `str.strip` / `str.rstrip` /
the `\s` regex class (ASCII range, which is all the sources use). -/
def pyWhite (c : Char) : Bool :=
  c = ' ' || c = '\t' || c = '\n' || c = '\r' || c = '\x0b' || c = '\x0c'

/-- Word characters of the Python `\w` regex class (ASCII range, which is all
that occurs next to the identifiers the rewriter manipulates). -/
def wordChar (c : Char) : Bool :=
  c.isAlphanum || c = '_'

/-- A line of text, as its characters. -/
abbrev Line := List Char

/-- Python `str.strip()` on a line. -/
def stripL (l : Line) : Line :=
  ((l.dropWhile pyWhite).reverse.dropWhile pyWhite).reverse

/-- Python `str.rstrip()` on a line. -/
def rstripL (l : Line) : Line :=
  (l.reverse.dropWhile pyWhite).reverse

/-- Split a character stream into lines at newline characters
(Python `content.split chr 10`). -/
def splitLinesCh : List Char → List Line
  | [] => [[]]
  | c :: cs =>
    let rest := splitLinesCh cs
    if c = '\n' then [] :: rest
    else (c :: rest.headD []) :: rest.tail

/-- Join lines with newline characters (Python `\n`-join). -/
def joinLinesCh : List Line → List Char
  | [] => []
  | [l] => l
  | l :: ls => l ++ '\n' :: joinLinesCh ls

/-- Boolean infix test on character lists (Python `needle in haystack`). -/
def infixOfB (needle : List Char) : List Char → Bool
  | [] => needle.isEmpty
  | c :: cs => needle.isPrefixOf (c :: cs) || infixOfB needle cs

/-- Python string comparison (lexicographic on code points). -/
def strLtB : List Char → List Char → Bool
  | [], [] => false
  | [], _ :: _ => true
  | _ :: _, [] => false
  | a :: as, b :: bs =>
    if a.val < b.val then true
    else if b.val < a.val then false
    else strLtB as bs

/-- Insert into a sorted list, keeping earlier elements first on ties
(stability of Python `sorted`). -/
def insertStr (a : String) : List String → List String
  | [] => [a]
  | b :: bs => if strLtB b.data a.data then b :: insertStr a bs else a :: b :: bs

/-- Python `sorted` on strings. -/
def sortStrings : List String → List String
  | [] => []
  | a :: as => insertStr a (sortStrings as)

/-- Deduplication keeping the first occurrence of each element.  Used where a
Python `set` is iterated: the unspecified set order is abstracted as
first-insertion order. -/
def insertOrderDedup (seen : List String) : List String → List String
  | [] => []
  | x :: xs =>
    if x ∈ seen then insertOrderDedup seen xs
    else x :: insertOrderDedup (x :: seen) xs

/-!  ### `Builder._apply_config`  (src/core/builder.py 350-376)

The source splits the text on newlines, collapses runs of blank lines when
`remove_empty_lines` is set (keeping at most `max_empty_lines` consecutive
blanks), optionally strips trailing whitespace from every line, and joins the
lines back.  It is embedded on the line list. -/

/-- Cleanup options of `BUILD_CONFIG['cleanup']`. -/
structure CleanupConfig where
  removeEmptyLines : Bool
  maxEmptyLines : Int
  removeTrailingWhitespace : Bool

/-- Python `not line.strip()`: the line is blank. -/
def isBlankLine (l : Line) : Bool := l.all pyWhite

/-- The blank-line collapse loop of `_apply_config`: `empty_count` is the
running count of consecutive blank lines, a blank line is kept only while the
count stays within `max_empty_lines`. -/
def collapseGo (maxE : Int) : Int → List Line → List Line
  | _, [] => []
  | cnt, l :: ls =>
    if isBlankLine l then
      if cnt + 1 ≤ maxE then l :: collapseGo maxE (cnt + 1) ls
      else collapseGo maxE (cnt + 1) ls
    else l :: collapseGo maxE 0 ls

/-- `Builder._apply_config` on the line decomposition of the text. -/
def applyConfig (cfg : CleanupConfig) (lines : List Line) : List Line :=
  let lines1 :=
    if cfg.removeEmptyLines then collapseGo cfg.maxEmptyLines 0 lines else lines
  if cfg.removeTrailingWhitespace then lines1.map rstripL else lines1

/-!  ### `Builder._save_output`  (src/core/builder.py 378-459)

The file-system interactions are modelled by an environment record holding
the result of each query the method makes, in the order it makes them; the
method itself becomes a pure function from that environment to its returned
`bool` together with the list of `[WARNING]` messages it prints on the
success path. -/

/-- Results of the file-system operations `_save_output` performs. -/
structure SaveEnv where
  /-- `os.path.exists(output_dir)` before writing. -/
  dirExists : Bool
  /-- `os.makedirs` raised (any exception lands in the outer handler). -/
  mkdirRaises : Bool
  /-- `os.path.exists(output_dir)` right after `os.makedirs`. -/
  dirExistsAfterCreate : Bool
  /-- `os.access(output_dir, os.W_OK)`. -/
  writable : Bool
  /-- `open(...).write` raised. -/
  writeRaises : Bool
  /-- `os.path.exists(output_file_abs)` after the write. -/
  fileExistsAfterWrite : Bool
  /-- the read-back `open(...).read()` raised. -/
  readRaises : Bool
  /-- length of the content read back. -/
  readBackLen : Nat
  /-- `os.path.exists(output_dir)` during the directory check. -/
  dirExistsAfter : Bool
  /-- `os.listdir(output_dir)`. -/
  listing : List String
  /-- `os.path.basename(output_file_abs)`. -/
  fileName : String

/-- `Builder._save_output`, given the environment and the length of the code
being written.  Returns the reported result and the warnings logged on the
success path (read-back and directory-listing integrity checks). -/
def saveOutput (env : SaveEnv) (codeLen : Nat) : Bool × List String :=
  if !env.dirExists && env.mkdirRaises then (false, [])
  else if !env.dirExists && !env.dirExistsAfterCreate then (false, [])
  else if !env.writable then (false, [])
  else if env.writeRaises then (false, [])
  else if env.fileExistsAfterWrite then
    let readWarnings :=
      if env.readRaises then ["WARNING: could not read file back"]
      else if env.readBackLen ≠ codeLen then ["WARNING: sizes do not match"]
      else []
    let listWarnings :=
      if env.dirExistsAfter && !(env.listing.contains env.fileName) then
        ["ERROR: file not in directory listing"]
      else []
    (true, readWarnings ++ listWarnings)
  else (false, [])

/-!  ### `Builder._determine_load_order`  (src/core/builder.py 96-166)

`_load_metadata` reads the side-car JSON; `_determine_load_order` then either
sorts the scanned module paths by name (when metadata with a
`module_mapping` key is present — the recorded order is not consulted) or
builds the fallback order: `config.py` and `imports.py` first, then each
category of the fixed priority list sorted, then the remaining modules
sorted. -/

/-- The metadata record, as far as `_determine_load_order` looks at it:
whether a `module_mapping` key is present, and the recorded unit order
(`class_order`), which the spec designates as authoritative. -/
structure BuildMetadata where
  hasModuleMapping : Bool
  classOrder : List String

/-- Fixed category priority list of `_determine_load_order`. -/
def categoryOrder : List String :=
  ["core", "handlers", "managers", "gui", "utils", "models", "analyzers", "logging"]

/-- The two designated priority files. -/
def priorityFiles : List String := ["config.py", "imports.py"]

/-- The no-metadata fallback order of `_determine_load_order`. -/
def fallbackOrder (allModules : List String) : List String :=
  let otherModules := allModules.filter (fun m => !(priorityFiles.contains m))
  let base := priorityFiles.filter (fun p => allModules.contains p)
  let withCats := categoryOrder.foldl
    (fun acc cat =>
      acc ++ sortStrings (otherModules.filter (fun m => String.isPrefixOf (cat ++ "/") m)))
    base
  let remaining := otherModules.filter (fun m => !(withCats.contains m))
  withCats ++ sortStrings remaining

/-- `Builder._determine_load_order` on the scanned module list. -/
def determineLoadOrder (metadata : Option BuildMetadata) (allModules : List String) :
    List String :=
  match metadata with
  | some md => if md.hasModuleMapping then sortStrings allModules else fallbackOrder allModules
  | none => fallbackOrder allModules

/-!  ### `CodeParser.get_constants`  (src/core/parser.py 197-254)

The AST hands the parser one record per top-level assignment target: the
bound name and the 1-based start/end line numbers of the statement.  The
method slices the source lines, finds the first non-blank non-comment line of
the slice, and rejects the assignment when that line starts with a space or a
tab. -/

/-- One `ast.Assign` target at module top level: name and 1-based inclusive
line bounds, as the AST reports them. -/
structure AssignRec where
  name : String
  startLine : Nat
  endLine : Nat
deriving DecidableEq

/-- A constant record produced by `get_constants`; `codeLines` is the line
slice `self.lines[start_line - 1 : end_line]` (the source stores it joined
by newlines). -/
structure BindingRec where
  name : String
  line : Nat
  endLine : Nat
  codeLines : List Line
deriving DecidableEq

/-- Python slice `lines[start_line - 1 : end_line]`. -/
def extractSlice (lines : List Line) (a : AssignRec) : List Line :=
  (lines.drop (a.startLine - 1)).take (a.endLine - (a.startLine - 1))

/-- The line is non-blank and its stripped form does not start with `#`
(the loop condition selecting `first_code_line`). -/
def isCodeLine (l : Line) : Bool :=
  let s := stripL l
  !s.isEmpty && !(['#'].isPrefixOf s)

/-- The first character of the line is a space or a tab. -/
def startsIndented (l : Line) : Bool :=
  l.headD 'x' = ' ' || l.headD 'x' = '\t'

/-- `CodeParser.get_constants`: one pass over the assignment records; records
out of range are skipped, records whose first code line is indented are
rejected, the rest become constants. -/
def getConstants (lines : List Line) : List AssignRec → List BindingRec
  | [] => []
  | a :: as =>
    if !lines.isEmpty && a.startLine ≤ lines.length then
      match (extractSlice lines a).find? isCodeLine with
      | some l =>
        if startsIndented l then getConstants lines as
        else ⟨a.name, a.startLine, a.endLine, extractSlice lines a⟩ :: getConstants lines as
      | none => ⟨a.name, a.startLine, a.endLine, extractSlice lines a⟩ :: getConstants lines as
    else getConstants lines as

/-!  ### `DependencyResolver`  (src/core/dependency_resolver.py)

The dependency mapping `{component: [dependencies]}` is an association list
in insertion order.  `get_load_order` first collects every component (all
names appearing in dependency lists together with all keys, a Python set
abstracted as first-insertion order), then runs the depth-first traversal:
a node already on the active stack (`temp_visited`) or already finished
(`visited`) is skipped, dependencies are visited before the node itself is
appended to the result.  The call-site membership check `dep in
all_components` and the two guards at the head of `visit` are combined into
one three-part guard. -/

/-- Python `self.dependencies.get(c, [])` on the association list. -/
def lookupDeps (deps : List (String × List String)) (c : String) : List String :=
  (List.lookup c deps).getD []

lemma filter_notMem_cons_lt (univ temp : List String) (c : String)
    (hcu : c ∈ univ) (hct : c ∉ temp) :
    (univ.filter (fun x => !decide (x = c) && !decide (x ∈ temp))).length
      < (univ.filter (fun x => !decide (x ∈ temp))).length := by
  have hsub : (univ.filter (fun x => !decide (x = c) && !decide (x ∈ temp))).Sublist
      (univ.filter (fun x => !decide (x ∈ temp))) := by
    apply List.monotone_filter_right
    intro a ha
    simp only [Bool.and_eq_true, decide_eq_true_eq, Bool.not_eq_true] at ha ⊢
    simpa using ha.2
  refine Nat.lt_of_le_of_ne hsub.length_le (fun heq => ?_)
  have heql := hsub.eq_of_length heq
  have hc2 : c ∈ univ.filter (fun x => !decide (x ∈ temp)) := by
    simp [hcu, hct]
  rw [← heql] at hc2
  simp at hc2

/-- The recursive `visit` of `get_load_order`, processing a pending list of
components against the active stack `temp` and the state `vr = (visited,
result)`.  Components failing any of the three guards (membership in the
component set, not on the active stack, not yet visited) are skipped; for the
rest the dependency list is processed first and the component is then marked
visited and appended to the result. -/
def visitPending (deps : List (String × List String)) (univ : List String) :
    List String → List String → List String × List String → List String × List String
  | [], _, vr => vr
  | c :: cs, temp, vr =>
    let vr2 :=
      if hg : c ∈ univ ∧ c ∉ temp ∧ c ∉ vr.1 then
        let inner := visitPending deps univ (lookupDeps deps c) (c :: temp) vr
        (c :: inner.1, inner.2 ++ [c])
      else vr
    visitPending deps univ cs temp vr2
termination_by cs temp vr => ((univ.filter (fun x => decide (x ∉ temp))).length, cs.length)
decreasing_by
  · simp_wf
    exact Prod.Lex.left _ _ (filter_notMem_cons_lt univ temp c hg.1 hg.2.1)
  · simp_wf
    exact Prod.Lex.right _ (Nat.lt_succ_self _)

/-- The component set of `get_load_order`: every name in a dependency list
and every key (`all_components`). -/
def allComponents (deps : List (String × List String)) : List String :=
  insertOrderDedup [] ((deps.map Prod.snd).flatten ++ deps.map Prod.fst)

/-- `DependencyResolver.get_load_order`. -/
def getLoadOrder (deps : List (String × List String)) : List String :=
  (visitPending deps (allComponents deps) (allComponents deps) [] ([], [])).2

/-- The source-declaration order of the components: the key order of the
dependency mapping. -/
def declaredOrder (deps : List (String × List String)) : List String :=
  deps.map Prod.fst

/-!  ### `Rebuilder._would_create_cycle`  (src/core/rebuilder.py 2667-2699)

`has_path_to` is a depth-first reachability query mutating one shared
`visited` set; it is embedded with the visited list threaded through the
calls and a fuel argument making the recursion structural.  Fuel exhaustion
returns `none`; the adequacy lemma below shows the chosen fuel never runs
out, so the embedding is total in exactly the way the source is. -/

/-- All names occurring in the graph (keys and dependency-list members). -/
def graphNodes (g : List (String × List String)) : List String :=
  g.map Prod.fst ++ (g.map Prod.snd).flatten

mutual

/-- `has_path_to(start, target)`: found the target, or skip a visited node,
or mark `start` visited and scan its dependency list. -/
def hasPathToFuel (g : List (String × List String)) (target : String) :
    Nat → String → List String → Option (Bool × List String)
  | 0, _, _ => none
  | fuel + 1, start, visited =>
    if start = target then some (true, visited)
    else if start ∈ visited then some (false, visited)
    else goDepsFuel g target fuel (lookupDeps g start) (start :: visited)
termination_by fuel _ _ => (fuel, 0)

/-- The `for dep in self.dependency_graph.get(start, [])` loop: short-circuit
on the first `True`, thread the mutated visited set otherwise. -/
def goDepsFuel (g : List (String × List String)) (target : String) :
    Nat → List String → List String → Option (Bool × List String)
  | _, [], visited => some (false, visited)
  | fuel, d :: ds, visited =>
    match hasPathToFuel g target fuel d visited with
    | none => none
    | some (true, v) => some (true, v)
    | some (false, v) => goDepsFuel g target fuel ds v
termination_by fuel ds _ => (fuel, ds.length + 1)

end

/-- `Rebuilder._would_create_cycle(from_class, to_class)`: `False` on an
empty name, otherwise the reachability query from `to_class` back to
`from_class` with an empty initial visited set. -/
def wouldCreateCycle (g : List (String × List String)) (fromC toC : String) : Bool :=
  if fromC = "" || toC = "" then false
  else
    match hasPathToFuel g fromC ((graphNodes g).length + 1) toC [] with
    | some (b, _) => b
    | none => false

/-- Reflexive-transitive reachability along the dependency graph, the
specification-side meaning of "there is already a path from `a` to `b`". -/
inductive Reach (g : List (String × List String)) : String → String → Prop
  | refl (a : String) : Reach g a a
  | step {a d b : String} : d ∈ lookupDeps g a → Reach g d b → Reach g a b

/-!  ### `DependencyResolver.resolve`  (src/core/dependency_resolver.py 83-178)
and `CodeParser.get_all_usages`  (src/core/parser.py 295-323)

`_analyze_classes` and `_analyze_functions` build the dependency lists from
declared bases, the parser's usage analysis, and a word-boundary scan of the
unit's own source text.  The AST collection of free names inside a body
(`get_usages`) is a parameter of the embedding (`rawUses`); everything the
parser and resolver do with those names is modelled. -/

/-- A parsed class record, as far as the resolver reads it. -/
structure ClassRec where
  name : String
  bases : List String
  code : String

/-- A parsed function record, as far as the resolver reads it. -/
structure FuncRec where
  name : String
  code : String

/-- A parsed constant record (also used by the `imports.py` generator). -/
structure ConstRec where
  name : String
  code : String
deriving DecidableEq

/-- Occurrence of `name` in `text` with regex word boundaries on both sides
(the resolver's `re.search` of an escaped name between two boundaries). -/
def wordOccursFrom (name : List Char) (prev : Option Char) : List Char → Bool
  | [] => false
  | c :: cs =>
    let boundaryBefore := match prev with
      | none => true
      | some p => !wordChar p
    let afterOk := match (c :: cs).drop name.length with
      | [] => true
      | d :: _ => !wordChar d
    (boundaryBefore && name.isPrefixOf (c :: cs) && afterOk)
      || wordOccursFrom name (some c) cs

/-- Word-boundary search of `name` anywhere in `code`. -/
def wordOccurs (name : String) (code : String) : Bool :=
  wordOccursFrom name.data none code.data

/-- Add to a Python set modelled as a list. -/
def addIfAbsent (x : String) (l : List String) : List String :=
  if x ∈ l then l else l ++ [x]

/-- Dependencies of one class in `_analyze_classes`: bases that are component
names, then the parser usages that are component names, then every other
component name occurring in the class source with word boundaries (the
unit's own name is skipped there, and only there). -/
def classDeps (allNames : List String) (usages : List (String × List String))
    (cls : ClassRec) : List String :=
  let d1 := cls.bases.foldl
    (fun acc b => if b ∈ allNames then addIfAbsent b acc else acc) []
  let d2 := ((List.lookup cls.name usages).getD []).foldl
    (fun acc u => if u ∈ allNames then addIfAbsent u acc else acc) d1
  if cls.code ≠ "" then
    allNames.foldl
      (fun acc n =>
        if n = cls.name then acc
        else if wordOccurs n cls.code then addIfAbsent n acc else acc)
      d2
  else d2

/-- Dependencies of one function in `_analyze_functions`: parser usages that
are component names, then the word-boundary scan (own name skipped). -/
def funcDeps (allNames : List String) (usages : List (String × List String))
    (f : FuncRec) : List String :=
  let d1 := ((List.lookup f.name usages).getD []).foldl
    (fun acc u => if u ∈ allNames then addIfAbsent u acc else acc) []
  if f.code ≠ "" then
    allNames.foldl
      (fun acc n =>
        if n = f.name then acc
        else if wordOccurs n f.code then addIfAbsent n acc else acc)
      d1
  else d1

/-- The component-name universe: class, function and constant names. -/
def componentNames (classes : List ClassRec) (funcs : List FuncRec)
    (consts : List ConstRec) : List String :=
  classes.map ClassRec.name ++ funcs.map FuncRec.name ++ consts.map ConstRec.name

/-- `DependencyResolver.resolve`: the dependency mapping built by
`_analyze_classes` followed by `_analyze_functions` (the derived reverse
index `dependents` plays no role in the claims). -/
def resolveDeps (classes : List ClassRec) (funcs : List FuncRec)
    (consts : List ConstRec) (usages : List (String × List String)) :
    List (String × List String) :=
  let allNames := componentNames classes funcs consts
  classes.map (fun c => (c.name, classDeps allNames usages c))
    ++ funcs.map (fun f => (f.name, funcDeps allNames usages f))

/-- `CodeParser.get_all_usages`: for each component (name, body) the raw
free names collected from the body by the AST walk (`rawUses`, a parameter
of the embedding) are filtered to names of other components; components with
an empty filtered list are not recorded. -/
def getAllUsages (rawUses : String → List String)
    (comps : List (String × String)) : List (String × List String) :=
  comps.filterMap (fun nc =>
    let filtered := (rawUses nc.2).filter
      (fun u => decide (u ∈ comps.map Prod.fst) && decide (u ≠ nc.1))
    if filtered.isEmpty then none else some (nc.1, filtered))

/-!  ### `Rebuilder._replace_with_lazy_import`  (src/core/rebuilder.py 2586-2665)

The method builds a zero-argument getter performing the deferred import,
inserts it as one block before the first `class`/`def` line (only when that
line is not the very first line), substitutes the module-level direct-import
pattern `from <category>.<module> import <class>` by a two-line comment, and
rewrites call (`C(`), attribute (`C.`) and decorator (`@C`) occurrences of
the class name on every non-comment line to go through the getter.  The
regex substitutions are embedded as character scanners; the fuel argument of
a scanner is the remaining text length, which each step strictly consumes,
so the fuel never runs out. -/

/-- The apostrophe character (used by the docstring-line check). -/
def apos : Char := Char.ofNat 39

/-- Match a literal, returning the remaining text. -/
def litMatch (lit cs : List Char) : Option (List Char) :=
  if lit.isPrefixOf cs then some (cs.drop lit.length) else none

/-- Match regex `\s+`: at least one whitespace character, greedily. -/
def wsPlus : List Char → Option (List Char)
  | [] => none
  | c :: rest => if pyWhite c then some (rest.dropWhile pyWhite) else none

/-- Match `from\s+<cat>\.<mod>\s+import\s+<cls>\b` at the head of the text,
returning the remaining text after the match. -/
def matchImportPat (cat mod cls cs : List Char) : Option (List Char) :=
  (litMatch "from".data cs).bind fun r1 =>
  (wsPlus r1).bind fun r2 =>
  (litMatch (cat ++ '.' :: mod) r2).bind fun r3 =>
  (wsPlus r3).bind fun r4 =>
  (litMatch "import".data r4).bind fun r5 =>
  (wsPlus r5).bind fun r6 =>
  (litMatch cls r6).bind fun r7 =>
  match r7 with
  | [] => some []
  | d :: _ => if wordChar d then none else some r7

/-- `re.sub` with the import pattern: leftmost matches replaced by `repl`,
replacement text not rescanned. -/
def subImportPatGo (cat mod cls repl : List Char) : Nat → List Char → List Char
  | 0, cs => cs
  | _ + 1, [] => []
  | fuel + 1, c :: cs =>
    match matchImportPat cat mod cls (c :: cs) with
    | some rest => repl ++ subImportPatGo cat mod cls repl fuel rest
    | none => c :: subImportPatGo cat mod cls repl fuel cs

def subImportPat (cat mod cls repl content : List Char) : List Char :=
  subImportPatGo cat mod cls repl content.length content

/-- `re.sub` with pattern `\b<pat>` where `pat` ends in a non-word character
(the call pattern `C(` and the attribute pattern `C.`): a match needs a
non-word character, or the start of the text, right before it. -/
def subBoundGo (pat repl : List Char) : Nat → Option Char → List Char → List Char
  | 0, _, cs => cs
  | _ + 1, _, [] => []
  | fuel + 1, prev, c :: cs =>
    let boundary := match prev with
      | none => true
      | some p => !wordChar p
    if boundary && pat.isPrefixOf (c :: cs) then
      repl ++ subBoundGo pat repl fuel (some (pat.getLastD c)) ((c :: cs).drop pat.length)
    else c :: subBoundGo pat repl fuel (some c) cs

/-- Match the decorator pattern `@\s*<cls>\b` at the head of the text. -/
def matchDecorPat (cls : List Char) : List Char → Option (List Char)
  | '@' :: rest =>
    (litMatch cls (rest.dropWhile pyWhite)).bind fun r =>
      match r with
      | [] => some []
      | d :: _ => if wordChar d then none else some r
  | _ => none

/-- `re.sub` with the decorator pattern. -/
def subDecorGo (cls repl : List Char) : Nat → List Char → List Char
  | 0, cs => cs
  | _ + 1, [] => []
  | fuel + 1, c :: cs =>
    match matchDecorPat cls (c :: cs) with
    | some rest => repl ++ subDecorGo cls repl fuel rest
    | none => c :: subDecorGo cls repl fuel cs

/-- The generated deferred-accessor block (`lazy_import_func`). -/
def lazyImportFunc (cls cat mod : List Char) : List Char :=
  "\ndef _get_".data ++ cls.map Char.toLower
    ++ "():\n    \"\"\"Отложенный импорт для избежания циклических зависимостей\"\"\"\n    from ".data
    ++ cat ++ '.' :: mod ++ " import ".data ++ cls ++ "\n    return ".data ++ cls ++ ['\n']

/-- The replacement comment for the module-level direct import. -/
def importComment (cls cat mod : List Char) : List Char :=
  "# Отложенный импорт для избежания циклических зависимостей\n# from ".data
    ++ cat ++ '.' :: mod ++ " import ".data ++ cls

/-- A stripped line starting `class ` or `def ` (but not `def _get_`). -/
def lineStartsClassOrDef (l : Line) : Bool :=
  let s := stripL l
  ("class ".data).isPrefixOf s
    || (("def ".data).isPrefixOf s && !(("def _get_".data).isPrefixOf s))

/-- The insertion-position scan: comments and blank lines are skipped, the
index of the first `class`/`def` line is returned, `0` when none is found. -/
def findInsertPos : Nat → List Line → Nat
  | _, [] => 0
  | i, l :: ls =>
    let s := stripL l
    if s.isEmpty || ['#'].isPrefixOf s then findInsertPos (i + 1) ls
    else if lineStartsClassOrDef l then i
    else findInsertPos (i + 1) ls

/-- The per-line rewriting loop: comment and docstring-opening lines are kept
verbatim; on a line containing the class name, `C(` becomes `_get_c()(`,
`C.` becomes `_get_c().` and `@C` becomes `@_get_c()()`. -/
def rewriteLine (cls getter : List Char) (line : Line) : Line :=
  let stripped := stripL line
  if ['#'].isPrefixOf stripped || ['\"', '\"', '\"'].isPrefixOf stripped
      || [apos, apos, apos].isPrefixOf stripped then line
  else if infixOfB cls line then
    let l1 := subBoundGo (cls ++ ['(']) (getter ++ "()(".data) line.length none line
    let l2 := subBoundGo (cls ++ ['.']) (getter ++ "().".data) l1.length none l1
    subDecorGo cls ('@' :: (getter ++ "()()".data)) l2.length l2
  else line

/-- `Rebuilder._replace_with_lazy_import(content, class_name, category,
module_name)` on the character stream of the module content. -/
def replaceWithLazyImport (content cls cat mod : List Char) : List Char :=
  let getter := "_get_".data ++ cls.map Char.toLower
  let content1 :=
    if infixOfB getter content then content
    else
      let lines := splitLinesCh content
      let pos := findInsertPos 0 lines
      if 0 < pos then joinLinesCh (lines.insertIdx pos (lazyImportFunc cls cat mod))
      else content
  let content2 := subImportPat cat mod cls (importComment cls cat mod) content1
  joinLinesCh ((splitLinesCh content2).map (rewriteLine cls getter))

/-!  ### `Rebuilder._generate_imports_code` and `_generate_global_init_code`
(src/core/rebuilder.py 815-1021)

A constant whose assignment text contains `C()` for a known class name `C`
is treated as a deferred global initialisation: the prelude gets
`<var> = None` with an explanatory comment and the original statement is
replayed in `init.py` after importing the classes named by `<name>()` calls
in it; every other constant is emitted in the prelude verbatim.  Generated
files are modelled as line lists (a multi-line constant body occupies one
block element, exactly as one `+= code + chr 10` append). -/

/-- A deferred global-initialisation record (`global_init` entries). -/
structure GInitRec where
  name : String
  originalCode : String
  initCode : String
deriving DecidableEq

/-- Python `"<cn>()" in code` for any known class name `cn`. -/
def hasClassCall (classNames : List String) (code : String) : Bool :=
  classNames.any (fun cn => infixOfB (cn.data ++ "()".data) code.data)

/-- Python `'=' in code`. -/
def containsEqB (code : String) : Bool := infixOfB ['='] code.data

/-- The variable-name extraction: text before the first `=`, stripped, then
cut at a `:` type annotation and stripped again. -/
def varNameOf (code : String) : String :=
  let beforeEq := stripL (code.data.takeWhile (fun c => c ≠ '='))
  if infixOfB [':'] beforeEq then
    String.mk (stripL (beforeEq.takeWhile (fun c => c ≠ ':')))
  else String.mk beforeEq

/-- The `global_init` record built for a deferred constant. -/
def mkGInit (c : ConstRec) : GInitRec :=
  ⟨varNameOf c.code, c.code,
    varNameOf c.code ++ " = None  # Будет инициализирован в init.py"⟩

/-- The classification loop of `_generate_imports_code`: constants whose text
contains a `C()` call of a known class (and an `=`) become `global_init`
records, the rest stay simple constants, both in original order. -/
def classifyConsts (classNames : List String) : List ConstRec → List ConstRec × List GInitRec
  | [] => ([], [])
  | c :: cs =>
    let rest := classifyConsts classNames cs
    if hasClassCall classNames c.code then
      if containsEqB c.code then (rest.1, mkGInit c :: rest.2) else rest
    else (c :: rest.1, rest.2)

/-- The banner line used by the generators. -/
def sepLine : String := "# " ++ String.mk (List.replicate 76 '=')

/-- The constants and deferred-globals sections appended to `imports.py`
(lines 922-951): simple constants verbatim, then the `None` placeholders. -/
def importsConstGlobalLines (simple : List ConstRec) (ginit : List GInitRec) :
    List String :=
  (if simple.isEmpty then []
   else [sepLine, "# КОНСТАНТЫ", sepLine, ""]
     ++ simple.map (fun c => if c.code ≠ "" then c.code else c.name ++ " = None") ++ [""])
  ++ (if ginit.isEmpty then []
      else [sepLine, "# ГЛОБАЛЬНЫЕ ПЕРЕМЕННЫЕ (инициализация)", sepLine,
        "# ВАЖНО: Создание экземпляров классов будет выполнено в init.py",
        "# после импорта всех классов", sepLine, ""]
        ++ ginit.map GInitRec.initCode ++ [""])

/-- Scanner for `re.findall` with pattern `(\w+)\(\)`: maximal word runs
immediately followed by `()`. -/
def wordParenGo (cur : List Char) : List Char → List String
  | [] => []
  | c :: cs =>
    if wordChar c then wordParenGo (cur ++ [c]) cs
    else if c = '(' && cs.headD ' ' = ')' && !cur.isEmpty then
      String.mk cur :: wordParenGo [] (cs.drop 1)
    else wordParenGo [] cs
termination_by l => l.length
decreasing_by
  · simp_wf
  · simp_wf
    omega
  · simp_wf

def wordParenCalls (code : String) : List String := wordParenGo [] code.data

/-- The class imports emitted at the top of `init.py`: the `<name>()` calls
of the original statements that name a mapped class, sorted; `mapping` maps
a class name to the relative-path components of its module file. -/
def neededClassImports (mapping : List (String × List String))
    (ginit : List GInitRec) : List String :=
  let called := (ginit.map (fun g => wordParenCalls g.originalCode)).flatten
  let needed := called.filter (fun cn => (List.lookup cn mapping).isSome)
  (sortStrings (insertOrderDedup [] needed)).filterMap (fun cn =>
    match List.lookup cn mapping with
    | some parts =>
      if 2 ≤ parts.length then
        some ("from " ++ parts.headD "" ++ "." ++ cn ++ " import " ++ cn)
      else none
    | none => none)

/-- Header of the generated `init.py`. -/
def initHeaderLines (sourceName : String) : List String :=
  ["#!/usr/bin/env python", "# -*- coding: utf-8 -*-", "\"\"\"",
   "Автоматически сгенерированный модуль из " ++ sourceName,
   "Инициализация глобальных переменных",
   "Создание экземпляров классов ПОСЛЕ импорта всех классов", "\"\"\"", "",
   "# Импортируем все импорты и константы", "from imports import *", ""]

/-- `Rebuilder._generate_global_init_code` as a line list: header, class
imports for the initialisations, then every original assignment statement
verbatim, in original order. -/
def genGlobalInitLines (sourceName : String)
    (mapping : List (String × List String)) (ginit : List GInitRec) : List String :=
  initHeaderLines sourceName
    ++ (if ginit.isEmpty then []
        else [sepLine, "# ИМПОРТ КЛАССОВ ДЛЯ ИНИЦИАЛИЗАЦИИ", sepLine,
          "# ВАЖНО: Классы должны быть импортированы ДО создания экземпляров",
          sepLine, ""]
          ++ neededClassImports mapping ginit ++ [""]
          ++ [sepLine, "# ИНИЦИАЛИЗАЦИЯ ГЛОБАЛЬНЫХ ПЕРЕМЕННЫХ", sepLine,
            "# ВАЖНО: Этот код выполняется ПОСЛЕ импорта всех классов", sepLine, ""]
          ++ ginit.map GInitRec.originalCode ++ [""])

/-! ## Theorems -/

lemma dropWhile_all_eq (p : Char → Bool) (xs : List Char) :
    (xs.dropWhile p).all p = xs.all p := by
  induction xs with
  | nil => rfl
  | cons x xs ih =>
    by_cases h : p x
    · simp [List.dropWhile_cons, h, ih]
    · simp [List.dropWhile_cons, h]

lemma all_reverse_eq (p : Char → Bool) (xs : List Char) :
    xs.reverse.all p = xs.all p := by
  simp [List.all_eq_true]

lemma isBlankLine_rstripL (l : Line) : isBlankLine (rstripL l) = isBlankLine l := by
  unfold isBlankLine rstripL
  rw [all_reverse_eq, dropWhile_all_eq, all_reverse_eq]

lemma rstripL_idem (l : Line) : rstripL (rstripL l) = rstripL l := by
  unfold rstripL
  rw [List.reverse_reverse, List.dropWhile_idempotent]

lemma collapseGo_map_rstripL (maxE cnt : Int) (ls : List Line) :
    collapseGo maxE cnt (ls.map rstripL) = (collapseGo maxE cnt ls).map rstripL := by
  induction ls generalizing cnt with
  | nil => rfl
  | cons l ls ih =>
    by_cases hb : isBlankLine l
    · by_cases hc : cnt + 1 ≤ maxE
      · simp [collapseGo, isBlankLine_rstripL, hb, hc, ih]
      · simp [collapseGo, isBlankLine_rstripL, hb, hc, ih]
    · simp [collapseGo, isBlankLine_rstripL, hb, ih]

lemma collapseGo_idem_pair (maxE : Int) (ls : List Line) :
    (∀ cnt, collapseGo maxE cnt (collapseGo maxE cnt ls) = collapseGo maxE cnt ls)
      ∧ (∀ c c' : Int, ¬(c + 1 ≤ maxE) → ¬(c' + 1 ≤ maxE) →
          collapseGo maxE c' (collapseGo maxE c ls) = collapseGo maxE c ls) := by
  induction ls with
  | nil => exact ⟨fun _ => rfl, fun _ _ _ _ => rfl⟩
  | cons l ls ih =>
    constructor
    · intro cnt
      by_cases hb : isBlankLine l
      · by_cases hc : cnt + 1 ≤ maxE
        · rw [collapseGo]
          simp only [hb, if_true, hc]
          rw [collapseGo]
          simp only [hb, if_true, hc, if_pos]
          rw [ih.1 (cnt + 1)]
        · rw [collapseGo]
          simp only [hb, if_true, hc, if_neg, if_false]
          exact ih.2 (cnt + 1) cnt (by omega) hc
      · rw [collapseGo]
        simp only [hb, if_false, Bool.false_eq_true]
        rw [collapseGo]
        simp only [hb, if_false, Bool.false_eq_true]
        rw [ih.1 0]
    · intro c c' hc hc'
      by_cases hb : isBlankLine l
      · rw [collapseGo]
        simp only [hb, if_true, if_neg hc]
        exact ih.2 (c + 1) c' (by omega) hc'
      · rw [collapseGo]
        simp only [hb, if_false, Bool.false_eq_true]
        rw [collapseGo]
        simp only [hb, if_false, Bool.false_eq_true]
        rw [ih.1 0]

lemma map_rstripL_twice (ls : List Line) :
    (ls.map rstripL).map rstripL = ls.map rstripL := by
  rw [List.map_map]
  exact List.map_congr_left (fun a _ => rstripL_idem a)

/-- C8: with `remove_empty_lines` enabled and any `max_empty_lines` value,
applying `_apply_config` twice yields the same result as applying it once
(the trailing-whitespace option may be on or off). -/
theorem applyConfig_idempotent (cfg : CleanupConfig) (lines : List Line)
    (h : cfg.removeEmptyLines = true) :
    applyConfig cfg (applyConfig cfg lines) = applyConfig cfg lines := by
  unfold applyConfig
  rw [h]
  simp only [if_true]
  by_cases ht : cfg.removeTrailingWhitespace
  · simp only [ht, if_true]
    rw [collapseGo_map_rstripL, (collapseGo_idem_pair cfg.maxEmptyLines lines).1 0,
      map_rstripL_twice]
  · simp only [ht, if_false]
    exact (collapseGo_idem_pair cfg.maxEmptyLines lines).1 0

/-- Witness for C8 at a concrete configuration and text. -/
theorem applyConfig_idempotent_witness :
    (CleanupConfig.mk true 1 true).removeEmptyLines = true
      ∧ applyConfig (CleanupConfig.mk true 1 true)
          (applyConfig (CleanupConfig.mk true 1 true)
            ["x = 1".data, [], [], [' ', ' '], "y ".data])
        = applyConfig (CleanupConfig.mk true 1 true)
            ["x = 1".data, [], [], [' ', ' '], "y ".data] :=
  ⟨rfl, applyConfig_idempotent (CleanupConfig.mk true 1 true)
    ["x = 1".data, [], [], [' ', ' '], "y ".data] rfl⟩

/-- C9: once the directory checks pass and the write itself does not raise,
`_save_output` reports success exactly when the file exists after the write;
the read-back length and the directory listing only contribute warnings. -/
theorem saveOutput_reports_exists (env : SaveEnv) (codeLen : Nat)
    (hdir : env.dirExists = true ∨ (env.mkdirRaises = false ∧ env.dirExistsAfterCreate = true))
    (hw : env.writable = true) (hwr : env.writeRaises = false) :
    (saveOutput env codeLen).1 = env.fileExistsAfterWrite := by
  unfold saveOutput
  rcases hdir with h | ⟨h1, h2⟩
  · by_cases hf : env.fileExistsAfterWrite <;> simp [h, hw, hwr, hf]
  · by_cases hd : env.dirExists <;> by_cases hf : env.fileExistsAfterWrite <;>
      simp [hd, h1, h2, hw, hwr, hf]

/-- Witness for C9: a run whose read-back length differs from the written
length and whose directory listing does not show the file still reports
success, because the file exists after the write. -/
theorem saveOutput_reports_exists_witness :
    (saveOutput (SaveEnv.mk true false true true false true false 11 true [] "out.py") 10).1
        = true
      ∧ (SaveEnv.mk true false true true false true false 11 true [] "out.py").readBackLen ≠ 10
      ∧ ((SaveEnv.mk true false true true false true false 11 true [] "out.py").listing.contains
          (SaveEnv.mk true false true true false true false 11 true [] "out.py").fileName)
          = false :=
  ⟨(saveOutput_reports_exists
      (SaveEnv.mk true false true true false true false 11 true [] "out.py") 10
      (Or.inl rfl) rfl rfl).trans rfl,
    by decide, by decide⟩

/-- C2: with metadata carrying a `module_mapping` key present,
`_determine_load_order` sorts the module paths alphabetically and ignores
the order the metadata records (here the metadata records
`["zeta.py", "alpha.py"]` but the result is alphabetical). -/
theorem determineLoadOrder_ignores_metadata :
    determineLoadOrder (some (BuildMetadata.mk true ["zeta.py", "alpha.py"]))
        ["zeta.py", "alpha.py"] = ["alpha.py", "zeta.py"]
      ∧ determineLoadOrder (some (BuildMetadata.mk true ["zeta.py", "alpha.py"]))
          ["zeta.py", "alpha.py"]
        ≠ (BuildMetadata.mk true ["zeta.py", "alpha.py"]).classOrder := by
  constructor
  · decide
  · decide

/-- C5 counterexample: a binding whose right-hand side is a direct
constructor call with an argument (`X = Tracker(5)`) is not deferred — the
substring test looks for `Tracker()` literally, fails, and the binding is
kept as a simple constant in the prelude, with no `global_init` record. -/
theorem classifyConsts_direct_call_not_deferred :
    classifyConsts ["Tracker"] [ConstRec.mk "X" "X = Tracker(5)"]
        = ([ConstRec.mk "X" "X = Tracker(5)"], [])
      ∧ hasClassCall ["Tracker"] "X = Tracker(5)" = false := by
  constructor
  · decide
  · decide

lemma classifyConsts_characterisation (classNames : List String) (consts : List ConstRec) :
    classifyConsts classNames consts
      = (consts.filter (fun c => !(hasClassCall classNames c.code)),
         (consts.filter (fun c =>
            hasClassCall classNames c.code && containsEqB c.code)).map mkGInit) := by
  induction consts with
  | nil => rfl
  | cons c cs ih =>
    rw [classifyConsts, ih]
    by_cases h1 : hasClassCall classNames c.code
    · by_cases h2 : containsEqB c.code
      · simp [List.filter_cons, h1, h2]
      · simp [List.filter_cons, h1, h2]
    · simp [List.filter_cons, h1]

/-- C5 amended: a binding is deferred exactly when its assignment text
contains the substring `C()` for a known class name `C`; deferred bindings
with an `=` get a `None` placeholder in the prelude and their original
statement is replayed verbatim, in original order, in the generated
`init.py` after the class-import lines; all other bindings — including
direct constructor calls with arguments — stay in the prelude unmodified
and in original order. -/
theorem deferredInit_classification (classNames : List String) (consts : List ConstRec)
    (sourceName : String) (mapping : List (String × List String)) :
    (classifyConsts classNames consts).1
        = consts.filter (fun c => !(hasClassCall classNames c.code))
      ∧ (classifyConsts classNames consts).2.map GInitRec.originalCode
          = (consts.filter (fun c =>
              hasClassCall classNames c.code && containsEqB c.code)).map ConstRec.code
      ∧ (∀ g ∈ (classifyConsts classNames consts).2,
          g.initCode = g.name ++ " = None  # Будет инициализирован в init.py"
            ∧ g.name = varNameOf g.originalCode)
      ∧ ((classifyConsts classNames consts).2 ≠ [] →
          genGlobalInitLines sourceName mapping (classifyConsts classNames consts).2
            = (initHeaderLines sourceName
                ++ [sepLine, "# ИМПОРТ КЛАССОВ ДЛЯ ИНИЦИАЛИЗАЦИИ", sepLine,
                  "# ВАЖНО: Классы должны быть импортированы ДО создания экземпляров",
                  sepLine, ""]
                ++ neededClassImports mapping (classifyConsts classNames consts).2 ++ [""]
                ++ [sepLine, "# ИНИЦИАЛИЗАЦИЯ ГЛОБАЛЬНЫХ ПЕРЕМЕННЫХ", sepLine,
                  "# ВАЖНО: Этот код выполняется ПОСЛЕ импорта всех классов", sepLine, ""])
              ++ (classifyConsts classNames consts).2.map GInitRec.originalCode ++ [""]) := by
  rw [classifyConsts_characterisation]
  refine ⟨rfl, by rw [List.map_map]; rfl, ?_, ?_⟩
  · intro g hg
    simp only [List.mem_map] at hg
    obtain ⟨c, _, hc⟩ := hg
    subst hc
    exact ⟨rfl, rfl⟩
  · intro hne
    rw [genGlobalInitLines]
    rw [if_neg (by simp only [List.isEmpty_iff]; exact hne)]
    simp [List.append_assoc]

/-- Witness for C5 at a concrete input: one deferred binding
(`T = Tracker()`) and one simple constant. -/
theorem deferredInit_classification_witness :
    (classifyConsts ["Tracker"] [ConstRec.mk "V" "V = 1", ConstRec.mk "T" "T = Tracker()"]).1
        = [ConstRec.mk "V" "V = 1"]
      ∧ (classifyConsts ["Tracker"]
          [ConstRec.mk "V" "V = 1", ConstRec.mk "T" "T = Tracker()"]).2.map
            GInitRec.originalCode = ["T = Tracker()"] := by
  have h := deferredInit_classification ["Tracker"]
    [ConstRec.mk "V" "V = 1", ConstRec.mk "T" "T = Tracker()"] "app.py" []
  refine ⟨h.1.trans (by decide), (h.2.1).trans (by decide)⟩

lemma extractSlice_cons_code (lines : List Line) (a : AssignRec)
    (h1 : 1 ≤ a.startLine) (h2 : a.startLine ≤ a.endLine)
    (h3 : a.startLine ≤ lines.length)
    (h4 : isCodeLine ((lines.drop (a.startLine - 1)).headD []) = true) :
    ∃ x xs, extractSlice lines a = x :: xs ∧ isCodeLine x = true := by
  have hk : a.startLine - 1 < lines.length := by omega
  have hd : lines.drop (a.startLine - 1) ≠ [] := by
    intro hnil
    rw [List.drop_eq_nil_iff] at hnil
    omega
  obtain ⟨x, xs, hx⟩ := List.exists_cons_of_ne_nil hd
  have hm : ∃ m, a.endLine - (a.startLine - 1) = m + 1 := by
    refine ⟨a.endLine - (a.startLine - 1) - 1, ?_⟩
    omega
  obtain ⟨m, hm⟩ := hm
  refine ⟨x, xs.take m, ?_, ?_⟩
  · rw [extractSlice, hx, hm, List.take_succ_cons]
  · rw [hx] at h4
    simpa using h4

/-- C6: assuming what the AST guarantees about every top-level assignment
record — a positive start line not after the end line, and a non-blank,
non-comment source line at the start line — every binding returned by
`get_constants` has a first non-blank, non-comment code line, and that line
has no leading space or tab (assignments whose extracted first code line is
indented are rejected and never returned). -/
theorem getConstants_first_line_unindented (lines : List Line) (assigns : List AssignRec)
    (H : ∀ a ∈ assigns, 1 ≤ a.startLine ∧ a.startLine ≤ a.endLine
        ∧ (a.startLine ≤ lines.length →
            isCodeLine ((lines.drop (a.startLine - 1)).headD []) = true)) :
    ∀ b ∈ getConstants lines assigns,
      ∃ l, b.codeLines.find? isCodeLine = some l ∧ startsIndented l = false := by
  induction assigns with
  | nil => intro b hb; simp [getConstants] at hb
  | cons a as ih =>
    intro b hb
    have Ha := H a (List.mem_cons_self a as)
    have ihr := ih (fun x hx => H x (List.mem_cons_of_mem _ hx))
    rw [getConstants] at hb
    by_cases hg : (!lines.isEmpty && decide (a.startLine ≤ lines.length)) = true
    · rw [if_pos hg] at hb
      have hlen : a.startLine ≤ lines.length := by
        simp only [Bool.and_eq_true, decide_eq_true_eq] at hg
        exact hg.2
      obtain ⟨x, xs, hslice, hcode⟩ :=
        extractSlice_cons_code lines a Ha.1 Ha.2.1 hlen (Ha.2.2 hlen)
      have hfind : (extractSlice lines a).find? isCodeLine = some x := by
        rw [hslice]
        exact List.find?_cons_of_pos _ hcode
      simp only [hfind] at hb
      by_cases hind : startsIndented x = true
      · rw [if_pos hind] at hb
        exact ihr b hb
      · rw [if_neg hind] at hb
        rcases List.mem_cons.mp hb with hbe | hbr
        · subst hbe
          exact ⟨x, hfind, by simpa using hind⟩
        · exact ihr b hbr
    · rw [if_neg hg] at hb
      exact ihr b hb

/-- Witness for C6 at a concrete document: one top-level assignment
`X = 1` on line 1 yields a binding whose first code line is unindented. -/
theorem getConstants_first_line_unindented_witness :
    ∃ l, (BindingRec.mk "X" 1 1 ["X = 1".data]).codeLines.find? isCodeLine = some l
      ∧ startsIndented l = false :=
  getConstants_first_line_unindented ["X = 1".data] [AssignRec.mk "X" 1 1]
    (by intro a ha; simp at ha; subst ha; refine ⟨by decide, by decide, fun _ => by decide⟩)
    (BindingRec.mk "X" 1 1 ["X = 1".data]) (by decide)

/-- C7 counterexample: a class declaring its own name among its bases (legal
Python when the name was bound before, e.g. a redefinition `class A(A)`)
keeps the self-reference in its dependency list — the base-class branch of
`_analyze_classes` has no self-exclusion. -/
theorem resolveDeps_self_base_kept :
    resolveDeps [ClassRec.mk "A" ["A"] "class A(A):\n    pass"] [] [] []
      = [("A", ["A"])] := by
  decide

lemma mem_addIfAbsent {x y : String} {l : List String} (h : y ∈ addIfAbsent x l) :
    y ∈ l ∨ y = x := by
  rw [addIfAbsent] at h
  by_cases hx : x ∈ l
  · rw [if_pos hx] at h
    exact Or.inl h
  · rw [if_neg hx] at h
    rcases List.mem_append.mp h with h1 | h2
    · exact Or.inl h1
    · simp at h2
      exact Or.inr h2

lemma mem_foldl_addIf {cond : String → Prop} [DecidablePred cond]
    {xs init : List String} {y : String}
    (h : y ∈ xs.foldl (fun acc b => if cond b then addIfAbsent b acc else acc) init) :
    y ∈ init ∨ y ∈ xs := by
  induction xs generalizing init with
  | nil => exact Or.inl h
  | cons x xs ih =>
    rw [List.foldl_cons] at h
    rcases ih h with hi | hx
    · by_cases hc : cond x
      · rw [if_pos hc] at hi
        rcases mem_addIfAbsent hi with h1 | h2
        · exact Or.inl h1
        · exact Or.inr (by simp [h2])
      · rw [if_neg hc] at hi
        exact Or.inl hi
    · exact Or.inr (List.mem_cons_of_mem _ hx)

lemma mem_foldl_skipIf {skip : String → Prop} [DecidablePred skip]
    {cond : String → Bool} {xs init : List String} {y : String}
    (h : y ∈ xs.foldl
      (fun acc n => if skip n then acc else if cond n then addIfAbsent n acc else acc) init) :
    y ∈ init ∨ (y ∈ xs ∧ ¬skip y) := by
  induction xs generalizing init with
  | nil => exact Or.inl h
  | cons x xs ih =>
    rw [List.foldl_cons] at h
    rcases ih h with hi | hx
    · by_cases hs : skip x
      · rw [if_pos hs] at hi
        exact Or.inl hi
      · rw [if_neg hs] at hi
        by_cases hc : cond x
        · rw [if_pos hc] at hi
          rcases mem_addIfAbsent hi with h1 | h2
          · exact Or.inl h1
          · subst h2
            exact Or.inr ⟨List.mem_cons_self _ _, hs⟩
        · rw [if_neg hc] at hi
          exact Or.inl hi
    · exact Or.inr ⟨List.mem_cons_of_mem _ hx.1, hx.2⟩

lemma mem_of_lookup_eq_some {l : List (String × List String)} {k : String}
    {v : List String} (h : List.lookup k l = some v) : (k, v) ∈ l := by
  induction l with
  | nil => simp [List.lookup] at h
  | cons p ps ih =>
    cases p with
    | mk a b =>
      rw [List.lookup] at h
      cases heq : (k == a) with
      | true =>
        simp only [heq] at h
        have hbv : b = v := by simpa using h
        subst hbv
        have hak : k = a := by simpa using heq
        subst hak
        exact List.mem_cons_self _ _
      | false =>
        simp only [heq] at h
        exact List.mem_cons_of_mem _ (ih h)

lemma getAllUsages_no_self (rawUses : String → List String)
    (comps : List (String × String)) :
    ∀ nu ∈ getAllUsages rawUses comps, nu.1 ∉ nu.2 := by
  intro nu hnu
  rw [getAllUsages] at hnu
  rcases List.mem_filterMap.mp hnu with ⟨nc, _, hf⟩
  by_cases he : ((rawUses nc.2).filter
      (fun u => decide (u ∈ comps.map Prod.fst) && decide (u ≠ nc.1))).isEmpty
  · rw [if_pos he] at hf
    exact absurd hf (by simp)
  · rw [if_neg he] at hf
    have hnu2 : nu = (nc.1, (rawUses nc.2).filter
        (fun u => decide (u ∈ comps.map Prod.fst) && decide (u ≠ nc.1))) := by
      simpa using hf.symm
    subst hnu2
    intro hmem
    have := List.of_mem_filter hmem
    simp at this

lemma classDeps_no_self (allNames : List String) (usages : List (String × List String))
    (cls : ClassRec) (hb : cls.name ∉ cls.bases)
    (hu : ∀ nu ∈ usages, nu.1 ∉ nu.2) :
    cls.name ∉ classDeps allNames usages cls := by
  intro hmem
  rw [classDeps] at hmem
  have step2 : cls.name ∉ ((List.lookup cls.name usages).getD []).foldl
      (fun acc u => if u ∈ allNames then addIfAbsent u acc else acc)
      (cls.bases.foldl (fun acc b => if b ∈ allNames then addIfAbsent b acc else acc) []) := by
    intro h2
    rcases mem_foldl_addIf h2 with h3 | h4
    · rcases mem_foldl_addIf h3 with h5 | h6
      · simp at h5
      · exact hb h6
    · cases hl : List.lookup cls.name usages with
      | none => rw [hl] at h4; simp at h4
      | some us =>
        rw [hl] at h4
        exact hu (cls.name, us) (mem_of_lookup_eq_some hl) h4
  by_cases hc : cls.code ≠ ""
  · rw [if_pos hc] at hmem
    rcases mem_foldl_skipIf hmem with h1 | h2
    · exact step2 h1
    · exact h2.2 rfl
  · rw [if_neg hc] at hmem
    exact step2 hmem

lemma funcDeps_no_self (allNames : List String) (usages : List (String × List String))
    (f : FuncRec) (hu : ∀ nu ∈ usages, nu.1 ∉ nu.2) :
    f.name ∉ funcDeps allNames usages f := by
  intro hmem
  rw [funcDeps] at hmem
  have step1 : f.name ∉ ((List.lookup f.name usages).getD []).foldl
      (fun acc u => if u ∈ allNames then addIfAbsent u acc else acc) [] := by
    intro h2
    rcases mem_foldl_addIf h2 with h3 | h4
    · simp at h3
    · cases hl : List.lookup f.name usages with
      | none => rw [hl] at h4; simp at h4
      | some us =>
        rw [hl] at h4
        exact hu (f.name, us) (mem_of_lookup_eq_some hl) h4
  by_cases hc : f.code ≠ ""
  · rw [if_pos hc] at hmem
    rcases mem_foldl_skipIf hmem with h1 | h2
    · exact step1 h1
    · exact h2.2 rfl
  · rw [if_neg hc] at hmem
    exact step1 hmem

/-- C7 amended: the usage analysis (which the parser already filters for
self-reference) and the textual word-boundary scan never contribute a unit's
own name to its dependency list; a self-reference can enter only through a
declared base equal to the unit's own name, so for every structure whose
classes do not list themselves among their bases, `resolve()` yields no
self-dependency for any unit. -/
theorem resolveDeps_no_self (classes : List ClassRec) (funcs : List FuncRec)
    (consts : List ConstRec) (rawUses : String → List String)
    (comps : List (String × String))
    (hb : ∀ c ∈ classes, c.name ∉ c.bases) :
    ∀ nd ∈ resolveDeps classes funcs consts (getAllUsages rawUses comps), nd.1 ∉ nd.2 := by
  intro nd hnd
  rw [resolveDeps] at hnd
  rcases List.mem_append.mp hnd with h1 | h2
  · rcases List.mem_map.mp h1 with ⟨c, hc, he⟩
    subst he
    exact classDeps_no_self _ _ c (hb c hc) (getAllUsages_no_self rawUses comps)
  · rcases List.mem_map.mp h2 with ⟨f, _, he⟩
    subst he
    exact funcDeps_no_self _ _ f (getAllUsages_no_self rawUses comps)

/-- Witness for C7 at a concrete structure: two classes `A` and `B(A)` with
a usage analysis obtained from the parser, and the entry for `B`. -/
theorem resolveDeps_no_self_witness :
    ("B", ["A"]) ∈ resolveDeps
        [ClassRec.mk "B" ["A"] "class B(A):\n    x = A", ClassRec.mk "A" [] "class A:\n    pass"]
        [] [] (getAllUsages (fun _ => ["A"]) [("A", ""), ("B", "")])
      ∧ ("B", ["A"]).1 ∉ ("B", ["A"]).2 :=
  ⟨by decide,
    resolveDeps_no_self
      [ClassRec.mk "B" ["A"] "class B(A):\n    x = A", ClassRec.mk "A" [] "class A:\n    pass"]
      [] [] (fun _ => ["A"]) [("A", ""), ("B", "")] (by decide) ("B", ["A"]) (by decide)⟩

lemma visitPending_nil (deps : List (String × List String)) (univ temp : List String)
    (vr : List String × List String) :
    visitPending deps univ [] temp vr = vr := by
  rw [visitPending]

lemma visitPending_cons (deps : List (String × List String)) (univ : List String)
    (c : String) (cs temp : List String) (vr : List String × List String) :
    visitPending deps univ (c :: cs) temp vr
      = visitPending deps univ cs temp
          (if c ∈ univ ∧ c ∉ temp ∧ c ∉ vr.1 then
            (c :: (visitPending deps univ (lookupDeps deps c) (c :: temp) vr).1,
              (visitPending deps univ (lookupDeps deps c) (c :: temp) vr).2 ++ [c])
          else vr) := by
  rw [visitPending]
  by_cases hg : c ∈ univ ∧ c ∉ temp ∧ c ∉ vr.1
  · rw [dif_pos hg, if_pos hg]
  · rw [dif_neg hg, if_neg hg]

lemma visitPending_master (deps : List (String × List String)) (univ : List String) :
    ∀ cs temp vr,
      (∀ x, x ∈ vr.1 ↔ x ∈ vr.2) → vr.2.Nodup → (∀ x ∈ temp, x ∉ vr.1) →
      ((∀ x, x ∈ (visitPending deps univ cs temp vr).1
          ↔ x ∈ (visitPending deps univ cs temp vr).2)
        ∧ (visitPending deps univ cs temp vr).2.Nodup
        ∧ (∀ x ∈ temp, x ∉ (visitPending deps univ cs temp vr).1)
        ∧ (∀ x ∈ vr.1, x ∈ (visitPending deps univ cs temp vr).1)
        ∧ (∀ x ∈ (visitPending deps univ cs temp vr).1, x ∈ vr.1 ∨ x ∈ univ)
        ∧ (∀ p ∈ cs, p ∈ univ → p ∉ temp → p ∈ (visitPending deps univ cs temp vr).1)) := by
  intro cs temp vr
  induction cs, temp, vr using visitPending.induct deps univ with
  | case1 temp vr =>
    intro h1 h2 h3
    rw [visitPending_nil]
    exact ⟨h1, h2, h3, fun x hx => hx, fun x hx => Or.inl hx, by simp⟩
  | case2 c cs temp vr vr2 ih1 ih2 =>
    intro h1 h2 h3
    rw [visitPending_cons]
    by_cases hg : c ∈ univ ∧ c ∉ temp ∧ c ∉ vr.1
    · rw [if_pos hg]
      have hvr2 : vr2 = (c :: (visitPending deps univ (lookupDeps deps c) (c :: temp) vr).1,
          (visitPending deps univ (lookupDeps deps c) (c :: temp) vr).2 ++ [c]) := dif_pos hg
      rw [hvr2] at ih2
      have htemp1 : ∀ x ∈ c :: temp, x ∉ vr.1 := by
        intro x hx
        rcases List.mem_cons.mp hx with he | ht
        · subst he; exact hg.2.2
        · exact h3 x ht
      obtain ⟨i1, i2, i3, i4, i5, i6⟩ := ih1 hg h1 h2 htemp1
      have hcnot : c ∉ (visitPending deps univ (lookupDeps deps c) (c :: temp) vr).1 :=
        i3 c (List.mem_cons_self _ _)
      have hcnot2 : c ∉ (visitPending deps univ (lookupDeps deps c) (c :: temp) vr).2 :=
        fun hcc => hcnot ((i1 c).mpr hcc)
      have p1 : ∀ x, x ∈ (c :: (visitPending deps univ (lookupDeps deps c) (c :: temp) vr).1,
          (visitPending deps univ (lookupDeps deps c) (c :: temp) vr).2 ++ [c]).1
          ↔ x ∈ (c :: (visitPending deps univ (lookupDeps deps c) (c :: temp) vr).1,
              (visitPending deps univ (lookupDeps deps c) (c :: temp) vr).2 ++ [c]).2 := by
        intro x
        simp only [List.mem_cons, List.mem_append, List.mem_singleton]
        rw [i1 x]
        tauto
      have p2 : ((c :: (visitPending deps univ (lookupDeps deps c) (c :: temp) vr).1,
          (visitPending deps univ (lookupDeps deps c) (c :: temp) vr).2 ++ [c]).2).Nodup := by
        refine List.Nodup.append i2 (List.nodup_singleton c) ?_
        intro a ha hb
        rw [List.mem_singleton] at hb
        subst hb
        exact hcnot2 ha
      have p3 : ∀ x ∈ temp,
          x ∉ (c :: (visitPending deps univ (lookupDeps deps c) (c :: temp) vr).1,
            (visitPending deps univ (lookupDeps deps c) (c :: temp) vr).2 ++ [c]).1 := by
        intro x hx hmem
        rcases List.mem_cons.mp hmem with he | hm
        · subst he; exact hg.2.1 hx
        · exact i3 x (List.mem_cons_of_mem _ hx) hm
      obtain ⟨r1, r2, r3, r4, r5, r6⟩ := ih2 p1 p2 p3
      refine ⟨r1, r2, r3, ?_, ?_, ?_⟩
      · intro x hx
        exact r4 x (List.mem_cons_of_mem _ (i4 x hx))
      · intro x hx
        rcases r5 x hx with hm | hu
        · rcases List.mem_cons.mp hm with he | hi
          · subst he; exact Or.inr hg.1
          · rcases i5 x hi with hv | hu2
            · exact Or.inl hv
            · exact Or.inr hu2
        · exact Or.inr hu
      · intro p hp hpu hpt
        rcases List.mem_cons.mp hp with he | hm
        · subst he
          exact r4 p (List.mem_cons_self _ _)
        · exact r6 p hm hpu hpt
    · rw [if_neg hg]
      have hvr2 : vr2 = vr := dif_neg hg
      rw [hvr2] at ih2
      obtain ⟨r1, r2, r3, r4, r5, r6⟩ := ih2 h1 h2 h3
      refine ⟨r1, r2, r3, r4, r5, ?_⟩
      intro p hp hpu hpt
      rcases List.mem_cons.mp hp with he | hm
      · subst he
        have hpv : p ∈ vr.1 := by
          by_contra hnv
          exact hg ⟨hpu, hpt, hnv⟩
        exact r4 p hpv
      · exact r6 p hm hpu hpt

/-- C10: for every dependency mapping, cyclic or not, the list returned by
`get_load_order` contains each component of the graph exactly once: it has
no duplicates, and its members are exactly the names appearing as keys or
inside dependency lists. -/
theorem getLoadOrder_covers_components (deps : List (String × List String)) :
    (getLoadOrder deps).Nodup
      ∧ ∀ x, x ∈ getLoadOrder deps ↔ x ∈ allComponents deps := by
  obtain ⟨i1, i2, _, _, i5, i6⟩ := visitPending_master deps (allComponents deps)
    (allComponents deps) [] ([], []) (by simp) List.nodup_nil (by simp)
  refine ⟨i2, fun x => ⟨fun hx => ?_, fun hx => ?_⟩⟩
  · rcases i5 x ((i1 x).mpr hx) with hv | hu
    · simp at hv
    · exact hu
  · exact (i1 x).mp (i6 x hx hx (by simp))

lemma mem_insertOrderDedup {x : String} {seen xs : List String} :
    x ∈ insertOrderDedup seen xs ↔ x ∈ xs ∧ x ∉ seen := by
  induction xs generalizing seen with
  | nil => simp [insertOrderDedup]
  | cons y ys ih =>
    rw [insertOrderDedup]
    by_cases hy : y ∈ seen
    · rw [if_pos hy, ih]
      constructor
      · intro ⟨h1, h2⟩
        exact ⟨List.mem_cons_of_mem _ h1, h2⟩
      · intro ⟨h1, h2⟩
        rcases List.mem_cons.mp h1 with he | hm
        · subst he; exact absurd hy h2
        · exact ⟨hm, h2⟩
    · rw [if_neg hy]
      constructor
      · intro hmem
        rcases List.mem_cons.mp hmem with he | hm
        · subst he; exact ⟨List.mem_cons_self _ _, hy⟩
        · obtain ⟨h1, h2⟩ := ih.mp hm
          refine ⟨List.mem_cons_of_mem _ h1, fun hs => h2 (List.mem_cons_of_mem _ hs)⟩
      · intro ⟨h1, h2⟩
        rcases List.mem_cons.mp h1 with he | hm
        · subst he; exact List.mem_cons_self _ _
        · by_cases hxy : x = y
          · subst hxy; exact List.mem_cons_self _ _
          · refine List.mem_cons_of_mem _ (ih.mpr ⟨hm, ?_⟩)
            intro hs
            rcases List.mem_cons.mp hs with he | hs2
            · exact hxy he
            · exact h2 hs2

lemma lookupDeps_subset_allComponents {deps : List (String × List String)}
    {c d : String} (h : d ∈ lookupDeps deps c) : d ∈ allComponents deps := by
  rw [lookupDeps] at h
  cases hl : List.lookup c deps with
  | none => rw [hl] at h; simp at h
  | some vs =>
    rw [hl] at h
    simp only [Option.getD_some] at h
    have hmem : (c, vs) ∈ deps := mem_of_lookup_eq_some hl
    rw [allComponents, mem_insertOrderDedup]
    refine ⟨List.mem_append_left _ ?_, by simp⟩
    rw [List.mem_flatten]
    exact ⟨vs, List.mem_map_of_mem Prod.snd hmem, h⟩

lemma visitPending_topo (deps : List (String × List String)) (univ : List String)
    (rank : String → Nat)
    (hrank : ∀ c d, d ∈ lookupDeps deps c → rank d < rank c)
    (huniv : ∀ c d, d ∈ lookupDeps deps c → d ∈ univ) :
    ∀ cs temp vr,
      (∀ x, x ∈ vr.1 ↔ x ∈ vr.2) → vr.2.Nodup → (∀ x ∈ temp, x ∉ vr.1) →
      (∀ c ∈ cs, ∀ x ∈ temp, rank c < rank x) →
      (∀ l1 c l2, vr.2 = l1 ++ c :: l2 → ∀ d ∈ lookupDeps deps c, d ∈ l1) →
      (∀ l1 c l2, (visitPending deps univ cs temp vr).2 = l1 ++ c :: l2 →
        ∀ d ∈ lookupDeps deps c, d ∈ l1) := by
  intro cs temp vr
  induction cs, temp, vr using visitPending.induct deps univ with
  | case1 temp vr =>
    intro _ _ _ _ hdco
    rw [visitPending_nil]
    exact hdco
  | case2 c cs temp vr vr2 ih1 ih2 =>
    intro h1 h2 h3 htr hdco
    rw [visitPending_cons]
    by_cases hg : c ∈ univ ∧ c ∉ temp ∧ c ∉ vr.1
    · rw [if_pos hg]
      have hvr2 : vr2 = (c :: (visitPending deps univ (lookupDeps deps c) (c :: temp) vr).1,
          (visitPending deps univ (lookupDeps deps c) (c :: temp) vr).2 ++ [c]) := dif_pos hg
      rw [hvr2] at ih2
      have htemp1 : ∀ x ∈ c :: temp, x ∉ vr.1 := by
        intro x hx
        rcases List.mem_cons.mp hx with he | ht
        · subst he; exact hg.2.2
        · exact h3 x ht
      obtain ⟨i1, i2, i3, i4, i5, i6⟩ :=
        visitPending_master deps univ (lookupDeps deps c) (c :: temp) vr h1 h2 htemp1
      have hcnot : c ∉ (visitPending deps univ (lookupDeps deps c) (c :: temp) vr).1 :=
        i3 c (List.mem_cons_self _ _)
      have hcnot2 : c ∉ (visitPending deps univ (lookupDeps deps c) (c :: temp) vr).2 :=
        fun hcc => hcnot ((i1 c).mpr hcc)
      -- the rank hypothesis for the inner pending list
      have htr1 : ∀ p ∈ lookupDeps deps c, ∀ x ∈ c :: temp, rank p < rank x := by
        intro p hp x hx
        rcases List.mem_cons.mp hx with he | ht
        · rw [he]; exact hrank c p hp
        · exact Nat.lt_trans (hrank c p hp) (htr c (List.mem_cons_self _ _) x ht)
      -- the inner result satisfies the order invariant
      have hdco1 : ∀ l1 cc l2,
          (visitPending deps univ (lookupDeps deps c) (c :: temp) vr).2 = l1 ++ cc :: l2 →
          ∀ d ∈ lookupDeps deps cc, d ∈ l1 :=
        ih1 hg h1 h2 htemp1 htr1 hdco
      -- every dependency of c has been visited by the inner call
      have hdep : ∀ d ∈ lookupDeps deps c,
          d ∈ (visitPending deps univ (lookupDeps deps c) (c :: temp) vr).2 := by
        intro d hd
        have hdt : d ∉ c :: temp := by
          intro hdt
          exact Nat.lt_irrefl _ (htr1 d hd d hdt)
        exact (i1 d).mp (i6 d hd (huniv c d hd) hdt)
      -- premises of the tail call
      have p1 : ∀ x, x ∈ (c :: (visitPending deps univ (lookupDeps deps c) (c :: temp) vr).1,
          (visitPending deps univ (lookupDeps deps c) (c :: temp) vr).2 ++ [c]).1
          ↔ x ∈ (c :: (visitPending deps univ (lookupDeps deps c) (c :: temp) vr).1,
              (visitPending deps univ (lookupDeps deps c) (c :: temp) vr).2 ++ [c]).2 := by
        intro x
        simp only [List.mem_cons, List.mem_append, List.mem_singleton]
        rw [i1 x]
        tauto
      have p2 : ((c :: (visitPending deps univ (lookupDeps deps c) (c :: temp) vr).1,
          (visitPending deps univ (lookupDeps deps c) (c :: temp) vr).2 ++ [c]).2).Nodup := by
        refine List.Nodup.append i2 (List.nodup_singleton c) ?_
        intro a ha hb
        rw [List.mem_singleton] at hb
        subst hb
        exact hcnot2 ha
      have p3 : ∀ x ∈ temp,
          x ∉ (c :: (visitPending deps univ (lookupDeps deps c) (c :: temp) vr).1,
            (visitPending deps univ (lookupDeps deps c) (c :: temp) vr).2 ++ [c]).1 := by
        intro x hx hmem
        rcases List.mem_cons.mp hmem with he | hm
        · subst he; exact hg.2.1 hx
        · exact i3 x (List.mem_cons_of_mem _ hx) hm
      have p4 : ∀ p ∈ cs, ∀ x ∈ temp, rank p < rank x :=
        fun p hp => htr p (List.mem_cons_of_mem _ hp)
      -- the appended result still satisfies the order invariant
      have p5 : ∀ l1 cc l2,
          ((visitPending deps univ (lookupDeps deps c) (c :: temp) vr).2 ++ [c])
            = l1 ++ cc :: l2 →
          ∀ d ∈ lookupDeps deps cc, d ∈ l1 := by
        intro l1 cc l2 hsplit d hd
        rcases List.eq_nil_or_concat l2 with h2n | ⟨l2f, ce, h2c⟩
        · subst h2n
          have hlen : (visitPending deps univ (lookupDeps deps c) (c :: temp) vr).2 = l1
              ∧ ([c] : List String) = [cc] := by
            apply List.append_inj' hsplit
            simp
          have hcc : c = cc := by simpa using hlen.2
          subst hcc
          rw [← hlen.1]
          exact hdep d hd
        · subst h2c
          have hsplit2 : (visitPending deps univ (lookupDeps deps c) (c :: temp) vr).2 ++ [c]
              = (l1 ++ cc :: l2f) ++ [ce] := by
            rw [hsplit]
            simp
          have hlen : (visitPending deps univ (lookupDeps deps c) (c :: temp) vr).2
              = l1 ++ cc :: l2f ∧ ([c] : List String) = [ce] := by
            apply List.append_inj' hsplit2
            simp
          exact hdco1 l1 cc l2f hlen.1 d hd
      exact ih2 p1 p2 p3 p4 p5
    · rw [if_neg hg]
      have hvr2 : vr2 = vr := dif_neg hg
      rw [hvr2] at ih2
      exact ih2 h1 h2 h3 (fun p hp => htr p (List.mem_cons_of_mem _ hp)) hdco

/-- C4 counterexample: on the three-cycle A→B→C→A, `get_load_order` returns
`["A", "C", "B"]`, which is not the source-declaration order `["A", "B",
"C"]` of the cycle members (entering the cycle at A or C instead gives
`["C", "B", "A"]` or `["B", "A", "C"]`, so no set-iteration order yields
the declared order either). -/
theorem getLoadOrder_cycle_not_declared_order :
    getLoadOrder [("A", ["B"]), ("B", ["C"]), ("C", ["A"])] = ["A", "C", "B"]
      ∧ getLoadOrder [("A", ["B"]), ("B", ["C"]), ("C", ["A"])]
          ≠ declaredOrder [("A", ["B"]), ("B", ["C"]), ("C", ["A"])] := by
  have h : getLoadOrder [("A", ["B"]), ("B", ["C"]), ("C", ["A"])] = ["A", "C", "B"] := by
    simp +decide [getLoadOrder, allComponents, visitPending, lookupDeps, List.lookup,
      insertOrderDedup]
  refine ⟨h, ?_⟩
  rw [h]
  decide

/-- C4 amended: `get_load_order` is total on every dependency mapping (a
node re-entered while on the active stack is skipped, the traversal always
returns); for an acyclic graph — witnessed by a rank function that strictly
decreases along dependency edges — every component appears after all of its
dependencies; components of a dependency cycle come out in the
depth-first completion order, which need not be the source-declaration
order. -/
theorem getLoadOrder_respects_dependencies (deps : List (String × List String))
    (rank : String → Nat)
    (hrank : ∀ c d, d ∈ lookupDeps deps c → rank d < rank c) :
    ∀ c ∈ getLoadOrder deps, ∀ d ∈ lookupDeps deps c,
      ∃ l1 l2, getLoadOrder deps = l1 ++ c :: l2 ∧ d ∈ l1 := by
  intro c hc d hd
  have hdco := visitPending_topo deps (allComponents deps) rank hrank
    (fun _ _ h => lookupDeps_subset_allComponents h)
    (allComponents deps) [] ([], []) (by simp) List.nodup_nil (by simp)
    (by simp) (by intro l1 cc l2 hsp; simp at hsp)
  obtain ⟨s, t, hsplit⟩ := List.append_of_mem hc
  exact ⟨s, t, hsplit, hdco s c t hsplit d hd⟩

/-- Witness for C4 at the concrete acyclic graph B→A: A is emitted before
B. -/
theorem getLoadOrder_respects_dependencies_witness :
    ∃ l1 l2, getLoadOrder [("B", ["A"]), ("A", [])] = l1 ++ "B" :: l2 ∧ "A" ∈ l1 := by
  have heval : getLoadOrder [("B", ["A"]), ("A", [])] = ["A", "B"] := by
    simp +decide [getLoadOrder, allComponents, visitPending, lookupDeps, List.lookup,
      insertOrderDedup]
  have hrank : ∀ c d, d ∈ lookupDeps [("B", ["A"]), ("A", [])] c →
      (fun s => if s = "B" then 1 else 0) d < (fun s => if s = "B" then 1 else 0) c := by
    intro c d h
    rw [lookupDeps, List.lookup] at h
    cases hc1 : (c == "B") with
    | true =>
      simp only [hc1] at h
      have hd : d = "A" := by simpa using h
      have hcb : c = "B" := by simpa using hc1
      subst hd
      subst hcb
      decide
    | false =>
      simp only [hc1, List.lookup] at h
      cases hc2 : (c == "A") with
      | true => simp only [hc2] at h; simp at h
      | false => simp only [hc2] at h; simp at h
  exact getLoadOrder_respects_dependencies [("B", ["A"]), ("A", [])]
    (fun s => if s = "B" then 1 else 0) hrank "B" (by rw [heval]; decide) "A"
    (by decide)

lemma hasPathToFuel_zero (g : List (String × List String)) (t s : String)
    (v : List String) : hasPathToFuel g t 0 s v = none := by
  rw [hasPathToFuel]

lemma hasPathToFuel_succ (g : List (String × List String)) (t : String) (fuel : Nat)
    (s : String) (v : List String) :
    hasPathToFuel g t (fuel + 1) s v
      = if s = t then some (true, v)
        else if s ∈ v then some (false, v)
        else goDepsFuel g t fuel (lookupDeps g s) (s :: v) := by
  rw [hasPathToFuel]

lemma goDepsFuel_nil (g : List (String × List String)) (t : String) (fuel : Nat)
    (v : List String) : goDepsFuel g t fuel [] v = some (false, v) := by
  cases fuel <;> rw [goDepsFuel]

lemma goDepsFuel_cons (g : List (String × List String)) (t : String) (fuel : Nat)
    (d : String) (ds v : List String) :
    goDepsFuel g t fuel (d :: ds) v
      = match hasPathToFuel g t fuel d v with
        | none => none
        | some (true, v2) => some (true, v2)
        | some (false, v2) => goDepsFuel g t fuel ds v2 := by
  cases fuel <;> rw [goDepsFuel]

lemma pathFuel_sound (g : List (String × List String)) (t : String) : ∀ fuel : Nat,
    (∀ s v b v2, hasPathToFuel g t fuel s v = some (b, v2) →
      v ⊆ v2 ∧ (b = true → Reach g s t)
        ∧ (b = false → s ∈ v2
            ∧ ∀ x ∈ v2, x ∉ v → (∀ d ∈ lookupDeps g x, d ∈ v2) ∧ x ≠ t))
    ∧ (∀ ds v b v2, goDepsFuel g t fuel ds v = some (b, v2) →
      v ⊆ v2 ∧ (b = true → ∃ d ∈ ds, Reach g d t)
        ∧ (b = false → (∀ d ∈ ds, d ∈ v2)
            ∧ ∀ x ∈ v2, x ∉ v → (∀ d ∈ lookupDeps g x, d ∈ v2) ∧ x ≠ t)) := by
  intro fuel
  induction fuel with
  | zero =>
    constructor
    · intro s v b v2 h
      rw [hasPathToFuel_zero] at h
      cases h
    · intro ds
      cases ds with
      | nil =>
        intro v b v2 h
        rw [goDepsFuel_nil] at h
        simp only [Option.some.injEq, Prod.mk.injEq] at h
        obtain ⟨hb, hv⟩ := h
        subst hb; subst hv
        refine ⟨fun x hx => hx, fun ht => Bool.noConfusion ht, fun _ => ⟨by simp, ?_⟩⟩
        intro x hx hnx
        exact absurd hx hnx
      | cons d ds =>
        intro v b v2 h
        rw [goDepsFuel_cons, hasPathToFuel_zero] at h
        cases h
  | succ fuel ihf =>
    have hTo : ∀ s v b v2, hasPathToFuel g t (fuel + 1) s v = some (b, v2) →
        v ⊆ v2 ∧ (b = true → Reach g s t)
          ∧ (b = false → s ∈ v2
              ∧ ∀ x ∈ v2, x ∉ v → (∀ d ∈ lookupDeps g x, d ∈ v2) ∧ x ≠ t) := by
      intro s v b v2 h
      rw [hasPathToFuel_succ] at h
      by_cases hst : s = t
      · rw [if_pos hst] at h
        simp only [Option.some.injEq, Prod.mk.injEq] at h
        obtain ⟨hb, hv⟩ := h
        subst hb; subst hv
        refine ⟨fun x hx => hx, fun _ => ?_, fun hf => Bool.noConfusion hf⟩
        rw [hst]
        exact Reach.refl t
      · rw [if_neg hst] at h
        by_cases hsv : s ∈ v
        · rw [if_pos hsv] at h
          simp only [Option.some.injEq, Prod.mk.injEq] at h
          obtain ⟨hb, hv⟩ := h
          subst hb; subst hv
          refine ⟨fun x hx => hx, fun ht => Bool.noConfusion ht, fun _ => ⟨hsv, ?_⟩⟩
          intro x hx hnx
          exact absurd hx hnx
        · rw [if_neg hsv] at h
          obtain ⟨hsub, htrue, hfalse⟩ := ihf.2 (lookupDeps g s) (s :: v) b v2 h
          refine ⟨fun x hx => hsub (List.mem_cons_of_mem _ hx), ?_, ?_⟩
          · intro hb
            obtain ⟨d, hd, hr⟩ := htrue hb
            exact Reach.step hd hr
          · intro hb
            obtain ⟨hdall, hnew⟩ := hfalse hb
            refine ⟨hsub (List.mem_cons_self _ _), ?_⟩
            intro x hx hnx
            by_cases hxs : x = s
            · subst hxs
              exact ⟨hdall, hst⟩
            · have hx2 : x ∉ s :: v := by
                intro hc
                rcases List.mem_cons.mp hc with he | hm
                · exact hxs he
                · exact hnx hm
              exact hnew x hx hx2
    constructor
    · exact hTo
    · intro ds
      induction ds with
      | nil =>
        intro v b v2 h
        rw [goDepsFuel_nil] at h
        simp only [Option.some.injEq, Prod.mk.injEq] at h
        obtain ⟨hb, hv⟩ := h
        subst hb; subst hv
        refine ⟨fun x hx => hx, fun ht => Bool.noConfusion ht, fun _ => ⟨by simp, ?_⟩⟩
        intro x hx hnx
        exact absurd hx hnx
      | cons d ds ihds =>
        intro v b v2 h
        rw [goDepsFuel_cons] at h
        cases hres : hasPathToFuel g t (fuel + 1) d v with
        | none =>
          rw [hres] at h
          cases h
        | some bv =>
          rw [hres] at h
          obtain ⟨b1, v1⟩ := bv
          cases b1 with
          | true =>
            have h2 : some (true, v1) = some (b, v2) := h
            simp only [Option.some.injEq, Prod.mk.injEq] at h2
            obtain ⟨hb, hv⟩ := h2
            subst hb; subst hv
            obtain ⟨hsub1, htrue1, _⟩ := hTo d v true v1 hres
            exact ⟨hsub1, fun _ => ⟨d, List.mem_cons_self _ _, htrue1 rfl⟩,
              fun hf => Bool.noConfusion hf⟩
          | false =>
            have h2 : goDepsFuel g t (fuel + 1) ds v1 = some (b, v2) := h
            obtain ⟨hsub1, _, hfalse1⟩ := hTo d v false v1 hres
            obtain ⟨hdv1, hnew1⟩ := hfalse1 rfl
            obtain ⟨hsub2, htrue2, hfalse2⟩ := ihds v1 b v2 h2
            refine ⟨fun x hx => hsub2 (hsub1 hx), ?_, ?_⟩
            · intro hb
              obtain ⟨d2, hd2, hr⟩ := htrue2 hb
              exact ⟨d2, List.mem_cons_of_mem _ hd2, hr⟩
            · intro hb
              obtain ⟨hdall2, hnew2⟩ := hfalse2 hb
              constructor
              · intro d2 hd2
                rcases List.mem_cons.mp hd2 with he | hm
                · rw [he]; exact hsub2 hdv1
                · exact hdall2 d2 hm
              · intro x hx hnx
                by_cases hxv1 : x ∈ v1
                · obtain ⟨hcl, hnt⟩ := hnew1 x hxv1 hnx
                  exact ⟨fun d3 hd3 => hsub2 (hcl d3 hd3), hnt⟩
                · exact hnew2 x hx hxv1

lemma filter_notin_length_le (l v v2 : List String) (hvv : v ⊆ v2) :
    (l.filter (fun x => decide (x ∉ v2))).length
      ≤ (l.filter (fun x => decide (x ∉ v))).length := by
  apply List.Sublist.length_le
  apply List.monotone_filter_right
  intro a ha
  simp only [decide_eq_true_eq] at ha ⊢
  exact fun hv => ha (hvv hv)

lemma filter_notin_cons_lt (l v : List String) (s : String)
    (hs : s ∈ l) (hv : s ∉ v) :
    (l.filter (fun x => decide (x ∉ s :: v))).length
      < (l.filter (fun x => decide (x ∉ v))).length := by
  have hsub : (l.filter (fun x => decide (x ∉ s :: v))).Sublist
      (l.filter (fun x => decide (x ∉ v))) := by
    apply List.monotone_filter_right
    intro a ha
    simp only [decide_eq_true_eq, List.mem_cons, not_or] at ha ⊢
    exact ha.2
  refine Nat.lt_of_le_of_ne hsub.length_le (fun heq => ?_)
  have heql := hsub.eq_of_length heq
  have hc2 : s ∈ l.filter (fun x => decide (x ∉ v)) := by
    simp [hs, hv]
  rw [← heql] at hc2
  simp at hc2

lemma lookup_eq_none_of_not_key {g : List (String × List String)} {s : String}
    (h : s ∉ g.map Prod.fst) : List.lookup s g = none := by
  induction g with
  | nil => rfl
  | cons p ps ih =>
    cases p with
    | mk a b =>
      rw [List.lookup]
      cases heq : (s == a) with
      | true =>
        exfalso
        apply h
        have : s = a := by simpa using heq
        rw [this]
        exact List.mem_cons_self _ _
      | false =>
        exact ih (fun hm => h (List.mem_cons_of_mem _ hm))

lemma pathFuel_adequate (g : List (String × List String)) (t : String) : ∀ fuel : Nat,
    (∀ s v, ((graphNodes g).filter (fun x => decide (x ∉ v))).length < fuel →
      hasPathToFuel g t fuel s v ≠ none)
    ∧ (∀ ds v, ((graphNodes g).filter (fun x => decide (x ∉ v))).length < fuel →
      goDepsFuel g t fuel ds v ≠ none) := by
  intro fuel
  induction fuel with
  | zero =>
    constructor
    · intro s v hb
      exact absurd hb (Nat.not_lt_zero _)
    · intro ds v hb
      exact absurd hb (Nat.not_lt_zero _)
  | succ fuel ihf =>
    have hTo : ∀ s v, ((graphNodes g).filter (fun x => decide (x ∉ v))).length < fuel + 1 →
        hasPathToFuel g t (fuel + 1) s v ≠ none := by
      intro s v hb
      rw [hasPathToFuel_succ]
      by_cases hst : s = t
      · rw [if_pos hst]
        exact fun hc => Option.noConfusion hc
      · rw [if_neg hst]
        by_cases hsv : s ∈ v
        · rw [if_pos hsv]
          exact fun hc => Option.noConfusion hc
        · rw [if_neg hsv]
          by_cases hsn : s ∈ graphNodes g
          · apply ihf.2
            have hlt := filter_notin_cons_lt (graphNodes g) v s hsn hsv
            omega
          · have hlk : lookupDeps g s = [] := by
              rw [lookupDeps, lookup_eq_none_of_not_key]
              · rfl
              · intro hk
                exact hsn (by rw [graphNodes]; exact List.mem_append_left _ hk)
            rw [hlk, goDepsFuel_nil]
            exact fun hc => Option.noConfusion hc
    constructor
    · exact hTo
    · intro ds
      induction ds with
      | nil =>
        intro v _
        rw [goDepsFuel_nil]
        exact fun hc => Option.noConfusion hc
      | cons d ds ihds =>
        intro v hb
        rw [goDepsFuel_cons]
        cases hres : hasPathToFuel g t (fuel + 1) d v with
        | none => exact absurd hres (hTo d v hb)
        | some bv =>
          obtain ⟨b1, v1⟩ := bv
          cases b1 with
          | true => exact fun hc => Option.noConfusion hc
          | false =>
            have hsub : v ⊆ v1 :=
              ((pathFuel_sound g t (fuel + 1)).1 d v false v1 hres).1
            have hle := filter_notin_length_le (graphNodes g) v v1 hsub
            have hne : goDepsFuel g t (fuel + 1) ds v1 ≠ none := ihds v1 (by omega)
            exact hne

lemma reach_mem_closed (g : List (String × List String)) (v2 : List String)
    (hcl : ∀ x ∈ v2, ∀ d ∈ lookupDeps g x, d ∈ v2) :
    ∀ a b, Reach g a b → a ∈ v2 → b ∈ v2 := by
  intro a b hr
  induction hr with
  | refl a => exact id
  | step hd _ ih => exact fun ha => ih (hcl _ ha _ hd)

/-- C3: `_would_create_cycle(u, t)` answers `True` exactly when both names
are non-empty and there is already a directed path (in the reflexive,
transitive sense) from `t` back to `u` in the dependency graph; an empty
name on either side yields `False`. -/
theorem wouldCreateCycle_iff_reach (g : List (String × List String))
    (fromC toC : String) :
    wouldCreateCycle g fromC toC = true
      ↔ fromC ≠ "" ∧ toC ≠ "" ∧ Reach g toC fromC := by
  rw [wouldCreateCycle]
  by_cases h1 : fromC = ""
  · simp [h1]
  · by_cases h2 : toC = ""
    · simp [h1, h2]
    · rw [if_neg (by simp [h1, h2])]
      cases hres : hasPathToFuel g fromC ((graphNodes g).length + 1) toC [] with
      | none =>
        exfalso
        refine (pathFuel_adequate g fromC ((graphNodes g).length + 1)).1 toC [] ?_ hres
        have hle : ((graphNodes g).filter (fun x => decide (x ∉ ([] : List String)))).length
            ≤ (graphNodes g).length := List.length_filter_le _ _
        omega
      | some bv =>
        obtain ⟨b1, v1⟩ := bv
        cases b1 with
        | true =>
          simp only [hres]
          have hr : Reach g toC fromC :=
            (((pathFuel_sound g fromC _).1 toC [] true v1 hres).2.1) rfl
          simp [h1, h2, hr]
        | false =>
          simp only [hres]
          obtain ⟨htoC, hnew⟩ :=
            (((pathFuel_sound g fromC _).1 toC [] false v1 hres).2.2) rfl
          have hnr : ¬Reach g toC fromC := by
            intro hr
            have hcl : ∀ x ∈ v1, ∀ d ∈ lookupDeps g x, d ∈ v1 := by
              intro x hx d hd
              exact (hnew x hx (by simp)).1 d hd
            have hfc : fromC ∈ v1 := reach_mem_closed g v1 hcl toC fromC hr htoC
            exact (hnew fromC hfc (by simp)).2 rfl
          simp [h1, h2, hnr]

set_option maxRecDepth 100000 in
/-- C1: evaluating `_replace_with_lazy_import` on a module whose class `A`
cyclically uses class `B` (from `core/b_module.py`).  The call site is
rewritten to the generated getter `_get_b()`, but the module-level
import-pattern substitution — which runs after the getter block has been
inserted — also matches the deferred import inside the getter itself and
comments it out, leaving `return B` with no binding for `B`: the generated
accessor does not perform the import on call.  No live (uncommented) import
of `B` remains anywhere in the output. -/
theorem replaceWithLazyImport_comments_out_getter_import :
    replaceWithLazyImport
        ("import os\n\nclass A:\n    def run(self):\n        return B()\n".data)
        ("B".data) ("core".data) ("b_module".data)
      = ("import os\n\n\ndef _get_b():\n    \"\"\"Отложенный импорт для избежания циклических зависимостей\"\"\"\n    # Отложенный импорт для избежания циклических зависимостей\n# from core.b_module import B\n    return B\n\nclass A:\n    def run(self):\n        return _get_b()()\n".data)
      ∧ ((splitLinesCh (replaceWithLazyImport
            ("import os\n\nclass A:\n    def run(self):\n        return B()\n".data)
            ("B".data) ("core".data) ("b_module".data))).all
          (fun l => decide (stripL l ≠ ("from core.b_module import B".data)))) = true := by
  constructor
  · rfl
  · decide
